import Mathlib

/-!
Verification of the category/product/review core of the mesaifinal backend.

The Lean definitions below are shallow embeddings of the Python source:
* `Category`, `Product`, `Review` mirror the model fields that the verified
  operations read or write (`src/backend/apps/core/models.py`).
* `fullPathFuel` / `descListF` embed the unguarded recursive methods
  `Category.full_path` and `Category.get_descendants`; since the Python
  recursion has no termination guard, the embedding is fuel-indexed and
  returns `none` when the recursion bound is exhausted.
* `invalidate_product_cache` / `cleanup_product_cache` embed the signal
  handlers of `src/backend/apps/core/signals.py` as the list of cache keys
  they delete.
* `add_review`, `update_stock` embed the corresponding view actions of
  `src/backend/apps/core/views.py`.
-/

/-- A row of the `categories` table; fields not read by the verified
operations (slug, description, image, is_active, sort_order, timestamps)
are omitted.  `parent` holds the id of the parent row, as the nullable
self-referencing foreign key does. -/
structure Category where
  id : Nat
  name : String
  parent : Option Nat
deriving Repr, DecidableEq

/-- A row of the `products` table; only the fields read by the verified
operations are kept.  `stock_quantity` is an integer because the view code
manipulates it with plain Python integer arithmetic before saving. -/
structure Product where
  id : Nat
  category_id : Nat
  price : ℚ
  cost : Option ℚ
  stock_quantity : Int
  status : String
  tag_ids : List Nat
deriving Repr, DecidableEq

/-- A row of the `reviews` table (fields used by the verified operations). -/
structure Review where
  product : Nat
  user : Nat
  rating : Nat
  is_approved : Bool
deriving Repr, DecidableEq

/-- Foreign-key lookup: the category row with the given id. -/
def findCat (s : List Category) (cid : Nat) : Option Category :=
  s.find? (fun c => c.id == cid)

/-- The reverse accessor `self.children.all()`: all rows whose `parent`
foreign key is this category.  (The Python queryset orders by
sort_order/name; order is irrelevant to the verified properties.) -/
def childrenOf (s : List Category) (c : Category) : List Category :=
  s.filter (fun k => k.parent == some c.id)

/-- Fuel-indexed embedding of `Category.full_path`:

    if self.parent:
        return f"{self.parent.full_path} > {self.name}"
    return self.name

The Python recursion is unguarded, so the embedding spends one unit of
fuel per parent hop and returns `none` when the bound is exhausted (or
when a parent id does not resolve, which referential integrity rules
out). -/
def fullPathFuel (s : List Category) : Nat → Category → Option String
  | 0, _ => none
  | fuel + 1, c =>
    match c.parent with
    | none => some c.name
    | some pid =>
      match findCat s pid with
      | none => none
      | some p => (fullPathFuel s fuel p).map (fun pp => pp ++ " > " ++ c.name)

/-- `Category.full_path` with the canonical fuel `s.length + 1`, which is
sufficient whenever the parent relation is acyclic. -/
def Category.full_path (s : List Category) (c : Category) : Option String :=
  fullPathFuel s (s.length + 1) c

/-- Bounded walk up the parent chain: `true` iff a root is reached within
`fuel` hops. -/
def rootedFuel (s : List Category) : Nat → Category → Bool
  | 0, _ => false
  | fuel + 1, c =>
    match c.parent with
    | none => true
    | some pid =>
      match findCat s pid with
      | none => false
      | some p => rootedFuel s fuel p

/-- The acyclic invariant, in executable form: from every row the parent
chain reaches a root within `s.length + 1` hops (equivalently, the parent
relation has no cycle reachable from a stored row and no dangling parent
id). -/
def Rooted (s : List Category) : Prop :=
  ∀ c ∈ s, rootedFuel s (s.length + 1) c = true

/-- Primary-key uniqueness of the stored category rows. -/
def NodupIds (s : List Category) : Prop :=
  (s.map Category.id).Nodup

instance (s : List Category) : Decidable (Rooted s) := by
  unfold Rooted
  infer_instance

instance (s : List Category) : Decidable (NodupIds s) := by
  unfold NodupIds
  infer_instance

/-- Depth of a row in the category tree (number of parent hops to the
root), fuel-indexed like the recursion it measures. -/
def depthF (s : List Category) : Nat → Category → Option Nat
  | 0, _ => none
  | fuel + 1, c =>
    match c.parent with
    | none => some 0
    | some pid =>
      match findCat s pid with
      | none => none
      | some p => (depthF s fuel p).map (· + 1)

/-- Depth at the canonical fuel. -/
def depthQ (s : List Category) (c : Category) : Option Nat :=
  depthF s (s.length + 1) c

/-- Fuel-indexed embedding of `Category.get_descendants`:

    descendants = []
    for child in self.children.all():
        descendants.append(child)
        descendants.extend(child.get_descendants())
    return descendants

`descStep s rec l` runs one layer of the loop over the pending child
list `l`, calling `rec` for the recursive descent into each child;
`descListF s fuel l` ties the knot with `fuel` units of recursion depth,
returning `none` when the bound is exhausted. -/
def descStep (s : List Category) (rec : List Category → Option (List Category)) :
    List Category → Option (List Category)
  | [] => some []
  | k :: ks =>
    match rec (childrenOf s k), descStep s rec ks with
    | some ds, some rest => some (k :: (ds ++ rest))
    | _, _ => none

/-- Fuel-indexed descendant collection; see `descStep`. -/
def descListF (s : List Category) : Nat → List Category → Option (List Category)
  | 0 => fun l => match l with | [] => some [] | _ :: _ => none
  | fuel + 1 => descStep s (descListF s fuel)

/-- `Category.get_descendants` with the canonical fuel. -/
def Category.get_descendants (s : List Category) (c : Category) : Option (List Category) :=
  descListF s (s.length + 1) (childrenOf s c)

/-- One parent→child edge: `b` is a stored child of `a`. -/
def childStep (s : List Category) (a b : Category) : Prop :=
  b ∈ s ∧ b.parent = some a.id

/-- `d` is transitively reachable from `c` along parent→children edges. -/
def ReachableFrom (s : List Category) (c d : Category) : Prop :=
  Relation.TransGen (childStep s) c d

/-- Embedding of the signal handler `invalidate_product_cache`
(post_save on Product): the list of cache keys it deletes. -/
def invalidate_product_cache (p : Product) : List String :=
  ["category_products_" ++ toString p.category_id,
   "featured_products",
   "product_stats"] ++
    (if p.tag_ids.isEmpty then []
     else p.tag_ids.map (fun t => "tag_products_" ++ toString t))

/-- Embedding of the signal handler `cleanup_product_cache`
(post_delete on Product): the list of cache keys it deletes. -/
def cleanup_product_cache (p : Product) : List String :=
  ["category_products_" ++ toString p.category_id,
   "featured_products",
   "product_stats"]

/-- Embedding of `Product.reduce_stock`:

    if self.stock_quantity >= quantity:
        self.stock_quantity -= quantity
        self.save(update_fields=[...])
        return True
    return False
-/
def Product.reduce_stock (p : Product) (quantity : Int) : Bool × Product :=
  if quantity ≤ p.stock_quantity then
    (true, { p with stock_quantity := p.stock_quantity - quantity })
  else
    (false, p)

/-- Embedding of `Product.profit_margin`:

    if self.cost:
        return ((self.price - self.cost) / self.price) * 100
    return None

Note the Python truthiness test: a cost equal to 0 is falsy, so the
method returns None both when cost is NULL and when cost is 0. -/
def Product.profit_margin (p : Product) : Option ℚ :=
  match p.cost with
  | none => none
  | some c => if c ≠ 0 then some (((p.price - c) / p.price) * 100) else none

/-- The duplicate check of `ProductViewSet.add_review`:
`Review.objects.filter(product=product, user=request.user).exists()`. -/
def reviewExists (rs : List Review) (pid uid : Nat) : Bool :=
  rs.any (fun r => r.product == pid && r.user == uid)

/-- Embedding of `ReviewSerializer.validate_rating`:

    if not 1 <= value <= 5:
        raise serializers.ValidationError("Rating must be between 1 and 5.")
-/
def validate_rating (rating : Nat) : Bool :=
  decide (1 ≤ rating) && decide (rating ≤ 5)

/-- Embedding of the `add_review` action: the duplicate check runs first
and rejects with the 400 duplicate error body; otherwise the submission
goes through the serializer, whose `validate_rating` rejects ratings
outside 1..5 with the 400 validation error and stores nothing.
`approved` is the effective `is_approved` value of the stored row: the
field is writable through the payload (it is not in the read-only field
list of the serializer) and takes the model default true when the
payload omits it.  Returns the response and the review store after the
call. -/
def add_review (rs : List Review) (pid uid : Nat) (rating : Nat) (approved : Bool) :
    Except String Review × List Review :=
  if reviewExists rs pid uid then
    (Except.error "You have already reviewed this product.", rs)
  else if validate_rating rating then
    let r : Review := { product := pid, user := uid, rating := rating, is_approved := approved }
    (Except.ok r, r :: rs)
  else
    (Except.error "Rating must be between 1 and 5.", rs)

/-- Approved-review count of a product, as computed by the serializer
method `get_review_count`. -/
def review_count (rs : List Review) (pid : Nat) : Nat :=
  (rs.filter (fun r => r.product == pid && r.is_approved)).length

/-- Number of stored reviews for a given (product, user) pair. -/
def pairCount (rs : List Review) (pid uid : Nat) : Nat :=
  (rs.filter (fun r => r.product == pid && r.user == uid)).length

/-- Embedding of the `update_stock` action (quantity already parsed to an
integer):

    if operation == 'set':
        product.stock_quantity = max(0, quantity)
    elif operation == 'add':
        product.stock_quantity += quantity
    elif operation == 'subtract':
        product.stock_quantity = max(0, product.stock_quantity - quantity)
    else:
        return Response({'error': 'Invalid operation. ...'}, ...)
-/
def update_stock (p : Product) (quantity : Int) (operation : String) :
    Except String Product :=
  if operation == "set" then
    Except.ok { p with stock_quantity := max 0 quantity }
  else if operation == "add" then
    Except.ok { p with stock_quantity := p.stock_quantity + quantity }
  else if operation == "subtract" then
    Except.ok { p with stock_quantity := max 0 (p.stock_quantity - quantity) }
  else
    Except.error "Invalid operation. Use set, add, or subtract."

/-- Published-product count of a category, from the two code sites named
by the spec contract `active_product_count`: with descendants it is the
`products` action of `CategoryViewSet` (products whose category id is the
category itself or any descendant, status published); without, it is the
serializer method `get_product_count` (published products of the category
alone). -/
def active_product_count (cats : List Category) (ps : List Product)
    (c : Category) (include_descendants : Bool) : Option Nat :=
  if include_descendants then
    (Category.get_descendants cats c).map (fun ds =>
      (ps.filter (fun p =>
        decide (p.category_id ∈ (c :: ds).map Category.id) &&
          p.status == "published")).length)
  else
    some (ps.filter (fun p =>
      p.category_id == c.id && p.status == "published")).length

/-- Modelled from the spec: the deletion machinery that enforces the
declared foreign-key policies (`on_delete=PROTECT` on `Product.category`,
`on_delete=CASCADE` on `Category.parent`) lives in the web framework, not
in this repository.  Per the spec, deleting a category cascades to its
descendant categories, and a delete-protected reference means the target
cannot be deleted while referencing products exist; on rejection nothing
changes.  Returns the response together with the category and product
stores after the call. -/
def delete_category (cats : List Category) (ps : List Product) (c : Category) :
    Except String Unit × List Category × List Product :=
  match Category.get_descendants cats c with
  | none => (Except.error "cycle detected in category tree", cats, ps)
  | some ds =>
    let doomed := (c :: ds).map Category.id
    if ps.any (fun p => decide (p.category_id ∈ doomed)) then
      (Except.error "ProtectedError: category has referencing products", cats, ps)
    else
      (Except.ok (), cats.filter (fun k => !(decide (k.id ∈ doomed))), ps)

/-! Concrete fixtures used by witnesses and counterexamples. -/

/-- A published product with stock 10 and no cost, no tags. -/
def pStock10 : Product :=
  { id := 1, category_id := 1, price := 10, cost := none,
    stock_quantity := 10, status := "published", tag_ids := [] }

/-- `pStock10` after a successful reduction by 5. -/
def pStock5 : Product := { pStock10 with stock_quantity := 5 }

/-- A product whose cost column holds the value 0 (present, not NULL). -/
def pCost0 : Product := { pStock10 with cost := some 0 }

/-- A product with price 10 and cost 5. -/
def pCost5 : Product := { pStock10 with cost := some 5 }

/-- A product in category 7 carrying tag 3. -/
def pTagged : Product := { pStock10 with category_id := 7, tag_ids := [3] }

/-- A category store whose single row is its own parent: the smallest
violation of the acyclic invariant. -/
def catCyc : Category := { id := 1, name := "A", parent := some 1 }

/-- The corrupted one-row store containing `catCyc`. -/
def sCyc : List Category := [catCyc]

/-- Root category of the two-level demo store. -/
def catElec : Category := { id := 1, name := "Electronics", parent := none }

/-- Child category of `catElec`. -/
def catComp : Category := { id := 2, name := "Computers", parent := some 1 }

/-- Grandchild category of `catElec` (child of `catComp`). -/
def catLap : Category := { id := 3, name := "Laptops", parent := some 2 }

/-- A root category unrelated to the `catElec` subtree. -/
def catOther : Category := { id := 4, name := "Garden", parent := none }

/-- A well-formed acyclic demo store. -/
def sDemo : List Category := [catElec, catComp, catLap, catOther]

/-- A published product sitting in the child category `catComp`. -/
def pComp : Product := { pStock10 with id := 2, category_id := 2 }

/-! Helper lemmas. -/

/-- If the duplicate check fails to find a review, the store holds no
review for that (product, user) pair. -/
theorem pairCount_eq_zero (rs : List Review) (pid uid : Nat)
    (h : reviewExists rs pid uid = false) : pairCount rs pid uid = 0 := by
  unfold pairCount
  rw [List.length_eq_zero, List.filter_eq_nil_iff]
  rw [reviewExists, List.any_eq_false] at h
  exact h

/-! Claim theorems. -/

/-- C5: `reduce_stock q` succeeds and decrements the stock by exactly `q`
when the current stock is at least `q`; otherwise it fails and leaves the
stock unchanged. -/
theorem reduce_stock_spec (p : Product) (q : Int) :
    (q ≤ p.stock_quantity →
      Product.reduce_stock p q = (true, { p with stock_quantity := p.stock_quantity - q })) ∧
    (p.stock_quantity < q → Product.reduce_stock p q = (false, p)) := by
  constructor
  · intro h
    simp [Product.reduce_stock, h]
  · intro h
    simp [Product.reduce_stock, not_le.mpr h]

/-- C5 witness: stock 10, reduce 5 succeeds leaving 5; a further
reduce 10 fails leaving 5. -/
theorem reduce_stock_witness :
    Product.reduce_stock pStock10 5 = (true, pStock5) ∧
      Product.reduce_stock pStock5 10 = (false, pStock5) := by
  constructor
  · rw [(reduce_stock_spec pStock10 5).1 (by decide)]
    decide
  · exact (reduce_stock_spec pStock5 10).2 (by decide)

/-- C8 counterexample: a product whose cost column holds 0 has a present
(non-null) cost, yet `profit_margin` is None, because the Python
truthiness test `if self.cost:` treats 0 as absent. -/
theorem profit_margin_cost_zero :
    pCost0.cost ≠ none ∧ Product.profit_margin pCost0 = none := by
  decide

/-- C8 (amended): `profit_margin` equals ((price − cost) / price) × 100
when the cost is present and nonzero, and it is None exactly when the
cost is absent or zero. -/
theorem profit_margin_spec (p : Product) :
    (∀ c, p.cost = some c → c ≠ 0 →
      Product.profit_margin p = some (((p.price - c) / p.price) * 100)) ∧
    (Product.profit_margin p = none ↔ (p.cost = none ∨ p.cost = some 0)) := by
  constructor
  · intro c hc hne
    simp [Product.profit_margin, hc, hne]
  · cases hp : p.cost with
    | none => simp [Product.profit_margin, hp]
    | some c =>
      by_cases hc : c = 0
      · subst hc
        simp [Product.profit_margin, hp]
      · simp [Product.profit_margin, hp, hc]

/-- C8 witness: price 10, cost 5 gives margin ((10 − 5) / 10) × 100. -/
theorem profit_margin_witness :
    Product.profit_margin pCost5 = some (((pCost5.price - 5) / pCost5.price) * 100) :=
  (profit_margin_spec pCost5).1 5 rfl (by decide)

/-- C10: `update_stock` with operation set yields max(0, quantity), with
subtract yields max(0, stock − quantity) — both clamped at zero, never
negative — while add is an unclamped addition. -/
theorem update_stock_spec (p : Product) (q : Int) :
    update_stock p q "set" = Except.ok { p with stock_quantity := max 0 q } ∧
    update_stock p q "add" = Except.ok { p with stock_quantity := p.stock_quantity + q } ∧
    update_stock p q "subtract" =
      Except.ok { p with stock_quantity := max 0 (p.stock_quantity - q) } ∧
    (0 : Int) ≤ max 0 q ∧ (0 : Int) ≤ max 0 (p.stock_quantity - q) :=
  ⟨rfl, rfl, rfl, le_max_left 0 q, le_max_left 0 _⟩

/-- C2 counterexample: for a product carrying tag 3, the post-save
handler invalidates the tag key but the post-delete handler does not, so
the two key sets differ. -/
theorem cleanup_product_cache_misses_tag_keys :
    ("tag_products_3" ∈ invalidate_product_cache pTagged) ∧
      ("tag_products_3" ∉ cleanup_product_cache pTagged) ∧
      cleanup_product_cache pTagged ≠ invalidate_product_cache pTagged := by
  decide

/-- C2 (amended): product deletion invalidates exactly the keys
category_products_{category_id}, featured_products and product_stats from
the pre-delete category; tag_products keys are not invalidated on delete,
so the delete key set matches the create/update key set only for products
without tags. -/
theorem cleanup_product_cache_spec (p : Product) :
    cleanup_product_cache p =
      ["category_products_" ++ toString p.category_id,
       "featured_products", "product_stats"] ∧
    (p.tag_ids = [] → cleanup_product_cache p = invalidate_product_cache p) := by
  constructor
  · rfl
  · intro h
    simp [cleanup_product_cache, invalidate_product_cache, h]

/-- C2 witness: for an untagged product the delete key set coincides with
the create/update key set. -/
theorem cleanup_product_cache_witness :
    cleanup_product_cache pStock10 = invalidate_product_cache pStock10 :=
  (cleanup_product_cache_spec pStock10).2 rfl

/-- Membership in the children list, unfolded. -/
theorem mem_childrenOf {s : List Category} {k x : Category} :
    x ∈ childrenOf s k ↔ x ∈ s ∧ x.parent = some k.id := by
  simp [childrenOf, List.mem_filter]

/-- With unique primary keys, a stored row is determined by its id. -/
theorem eq_of_mem_of_id_eq {s : List Category} (hN : NodupIds s)
    {a b : Category} (ha : a ∈ s) (hb : b ∈ s) (h : a.id = b.id) : a = b :=
  List.inj_on_of_nodup_map hN ha hb h

/-- With unique primary keys, looking up the id of a stored row returns
that row. -/
theorem findCat_self {s : List Category} (hN : NodupIds s) {c : Category}
    (hc : c ∈ s) : findCat s c.id = some c := by
  unfold findCat
  induction s with
  | nil => cases hc
  | cons a t ih =>
    by_cases ha : (a.id == c.id) = true
    · simp only [List.find?_cons, ha]
      have haid : a.id = c.id := by simpa using ha
      rcases List.mem_cons.mp hc with h | h
      · rw [h]
      · exfalso
        have h1 : c.id ∈ t.map Category.id := List.mem_map_of_mem _ h
        have h2 : a.id ∉ t.map Category.id := (List.nodup_cons.mp hN).1
        rw [haid] at h2
        exact h2 h1
    · rw [Bool.not_eq_true] at ha
      simp only [List.find?_cons, ha]
      have hne : c ≠ a := by
        intro he
        rw [he] at ha
        simp at ha
      have hct : c ∈ t := by
        rcases List.mem_cons.mp hc with h | h
        · exact absurd h hne
        · exact h
      exact ih (List.nodup_cons.mp hN).2 hct

/-- A computed depth is strictly below the fuel spent. -/
theorem depthF_lt {s : List Category} :
    ∀ {f : Nat} {c : Category} {d : Nat}, depthF s f c = some d → d < f := by
  intro f
  induction f with
  | zero => intro c d h; simp [depthF] at h
  | succ n ih =>
    intro c d h
    simp only [depthF] at h
    split at h
    · injection h with h
      omega
    · split at h
      · cases h
      · obtain ⟨d', hd', hdd⟩ := Option.map_eq_some'.mp h
        have := ih hd'
        omega

/-- A computed depth is reproduced by any larger fuel. -/
theorem depthF_eq_of_lt {s : List Category} :
    ∀ {f : Nat} {c : Category} {d : Nat}, depthF s f c = some d →
      ∀ {f' : Nat}, d < f' → depthF s f' c = some d := by
  intro f
  induction f with
  | zero => intro c d h; simp [depthF] at h
  | succ n ih =>
    intro c d h f' hf'
    obtain ⟨m, rfl⟩ : ∃ m, f' = m + 1 := ⟨f' - 1, by omega⟩
    simp only [depthF] at h ⊢
    split at h
    · exact h
    · split at h
      · cases h
      · obtain ⟨d', hd', hdd⟩ := Option.map_eq_some'.mp h
        have hlt : d' < m := by omega
        rw [ih hd' hlt]
        simp only [Option.map_some']
        rw [hdd]

/-- Two successful depth computations agree, whatever the fuels. -/
theorem depthF_unique {s : List Category} {f f' : Nat} {c : Category} {d d' : Nat}
    (h : depthF s f c = some d) (h' : depthF s f' c = some d') : d = d' := by
  have h1 := depthF_eq_of_lt h (show d < d + d' + 1 by omega)
  have h2 := depthF_eq_of_lt h' (show d' < d + d' + 1 by omega)
  rw [h1] at h2
  exact Option.some.inj h2

/-- The depth computation succeeds exactly when the bounded parent walk
reaches a root. -/
theorem depthF_isSome {s : List Category} :
    ∀ {f : Nat} {c : Category}, (depthF s f c).isSome = rootedFuel s f c := by
  intro f
  induction f with
  | zero => intro c; rfl
  | succ n ih =>
    intro c
    simp only [depthF, rootedFuel]
    split
    · rfl
    · split
      · rfl
      · rename_i p hfind
        rw [← ih (c := p)]
        cases depthF s n p <;> rfl

/-- The path computation succeeds exactly when the bounded parent walk
reaches a root. -/
theorem fullPathFuel_isSome {s : List Category} :
    ∀ {f : Nat} {c : Category}, (fullPathFuel s f c).isSome = rootedFuel s f c := by
  intro f
  induction f with
  | zero => intro c; rfl
  | succ n ih =>
    intro c
    simp only [fullPathFuel, rootedFuel]
    split
    · rfl
    · split
      · rfl
      · rename_i p hfind
        rw [← ih (c := p)]
        cases fullPathFuel s n p <;> rfl

/-- A computed full path is reproduced by any larger fuel. -/
theorem fullPathFuel_mono {s : List Category} :
    ∀ {f f' : Nat}, f ≤ f' → ∀ {c : Category} {v : String},
      fullPathFuel s f c = some v → fullPathFuel s f' c = some v := by
  intro f
  induction f with
  | zero => intro f' _ c v h; simp [fullPathFuel] at h
  | succ n ih =>
    intro f' hle c v h
    obtain ⟨m, rfl⟩ : ∃ m, f' = m + 1 := ⟨f' - 1, by omega⟩
    have hnm : n ≤ m := by omega
    simp only [fullPathFuel] at h ⊢
    split at h
    · exact h
    · split at h
      · cases h
      · obtain ⟨v', hv', hvv⟩ := Option.map_eq_some'.mp h
        rw [ih hnm hv']
        simp [hvv]

/-- In a rooted store with unique ids, a stored child sits exactly one
level below its stored parent. -/
theorem depthQ_step {s : List Category} (hN : NodupIds s) (hR : Rooted s)
    {k x : Category} (hk : k ∈ s) (hx : x ∈ s) (hpar : x.parent = some k.id) :
    ∃ dk, depthQ s k = some dk ∧ depthQ s x = some (dk + 1) := by
  have hxs : (depthF s (s.length + 1) x).isSome = true := by
    rw [depthF_isSome]
    exact hR x hx
  obtain ⟨dx, hdx⟩ := Option.isSome_iff_exists.mp hxs
  have hks : (depthF s (s.length + 1) k).isSome = true := by
    rw [depthF_isSome]
    exact hR k hk
  obtain ⟨dk, hdk⟩ := Option.isSome_iff_exists.mp hks
  refine ⟨dk, hdk, ?_⟩
  have hfind : findCat s k.id = some k := findCat_self hN hk
  have hunf : depthF s (s.length + 1) x = (depthF s s.length k).map (· + 1) := by
    simp only [depthF, hpar, hfind]
  rw [hunf] at hdx
  obtain ⟨dk', hdk', hplus⟩ := Option.map_eq_some'.mp hdx
  have hdk'' : depthF s (s.length + 1) k = some dk' :=
    depthF_eq_of_lt hdk' (by have := depthF_lt hdk'; omega)
  rw [hdk] at hdk''
  have : dk = dk' := Option.some.inj hdk''
  subst this
  rw [depthQ, hunf, hdk']
  simp [hplus]

/-- Every element of the pending list ends up in a successful result of
`descStep`, whatever the recursive results are. -/
theorem descStep_mem_of_mem_list {s : List Category}
    {rec : List Category → Option (List Category)} :
    ∀ {l r : List Category}, descStep s rec l = some r →
      ∀ {k : Category}, k ∈ l → k ∈ r := by
  intro l
  induction l with
  | nil => intro r _ k hk; cases hk
  | cons a t ih =>
    intro r h k hk
    simp only [descStep] at h
    split at h
    · rename_i ds rest hds hrest
      injection h with h
      subst h
      rcases List.mem_cons.mp hk with rfl | hk'
      · exact List.mem_cons_self _ _
      · have : k ∈ rest := ih hrest hk'
        exact List.mem_cons_of_mem _ (List.mem_append_right _ this)
    · cases h

/-- Every element of the pending list ends up in a successful result of
the fueled descendant collection. -/
theorem descListF_mem_of_mem_list {s : List Category} {f : Nat}
    {l r : List Category} (h : descListF s f l = some r)
    {k : Category} (hk : k ∈ l) : k ∈ r := by
  cases f with
  | zero =>
    cases l with
    | nil => cases hk
    | cons a t => simp [descListF] at h
  | succ n => exact descStep_mem_of_mem_list h hk

/-- Unfolding of the fueled collection at a successor fuel. -/
theorem descListF_succ {s : List Category} {n : Nat} {l : List Category} :
    descListF s (n + 1) l = descStep s (descListF s n) l := rfl

/-- A successful result of the fueled collection is closed under taking
stored children of its members. -/
theorem descListF_closed {s : List Category} :
    ∀ {f : Nat} {l r : List Category}, descListF s f l = some r →
      ∀ {m : Category}, m ∈ r → ∀ {x : Category}, x ∈ childrenOf s m → x ∈ r := by
  intro f
  induction f with
  | zero =>
    intro l r h m hm x hx
    cases l with
    | nil =>
      simp only [descListF] at h
      injection h with h
      subst h
      cases hm
    | cons a t => simp [descListF] at h
  | succ n ihf =>
    intro l
    induction l with
    | nil =>
      intro r h m hm x hx
      rw [descListF_succ] at h
      simp only [descStep] at h
      injection h with h
      subst h
      cases hm
    | cons a t ihl =>
      intro r h m hm x hx
      rw [descListF_succ] at h
      simp only [descStep] at h
      split at h
      · rename_i ds rest hds hrest
        injection h with h
        subst h
        rcases List.mem_cons.mp hm with rfl | hm'
        · have : x ∈ ds := descListF_mem_of_mem_list hds hx
          exact List.mem_cons_of_mem _ (List.mem_append_left _ this)
        · rcases List.mem_append.mp hm' with hmds | hmrest
          · have : x ∈ ds := ihf hds hmds hx
            exact List.mem_cons_of_mem _ (List.mem_append_left _ this)
          · have hrest' : descListF s (n + 1) t = some rest := hrest
            have : x ∈ rest := ihl hrest' hmrest hx
            exact List.mem_cons_of_mem _ (List.mem_append_right _ this)
      · cases h

/-- Every member of a successful result is linked to some pending-list
entry by a (possibly empty) chain of parent→child edges. -/
theorem descListF_rtg_of_mem {s : List Category} :
    ∀ {f : Nat} {l r : List Category}, descListF s f l = some r →
      ∀ {d : Category}, d ∈ r →
        ∃ k, k ∈ l ∧ Relation.ReflTransGen (childStep s) k d := by
  intro f
  induction f with
  | zero =>
    intro l r h d hd
    cases l with
    | nil =>
      simp only [descListF] at h
      injection h with h
      subst h
      cases hd
    | cons a t => simp [descListF] at h
  | succ n ihf =>
    intro l
    induction l with
    | nil =>
      intro r h d hd
      rw [descListF_succ] at h
      simp only [descStep] at h
      injection h with h
      subst h
      cases hd
    | cons a t ihl =>
      intro r h d hd
      rw [descListF_succ] at h
      simp only [descStep] at h
      split at h
      · rename_i ds rest hds hrest
        injection h with h
        subst h
        rcases List.mem_cons.mp hd with rfl | hd'
        · exact ⟨d, List.mem_cons_self _ _, Relation.ReflTransGen.refl⟩
        · rcases List.mem_append.mp hd' with hdds | hdrest
          · obtain ⟨y, hy, hrtg⟩ := ihf hds hdds
            have hyc := mem_childrenOf.mp hy
            exact ⟨a, List.mem_cons_self _ _,
              Relation.ReflTransGen.head ⟨hyc.1, hyc.2⟩ hrtg⟩
          · have hrest' : descListF s (n + 1) t = some rest := hrest
            obtain ⟨k, hk, hrtg⟩ := ihl hrest' hdrest
            exact ⟨k, List.mem_cons_of_mem _ hk, hrtg⟩
      · cases h

/-- Everything transitively reachable from `c` lands in a successful run
of the fueled collection started on the children of `c`. -/
theorem descListF_mem_of_reach {s : List Category} {c : Category} {f : Nat}
    {r : List Category} (h : descListF s f (childrenOf s c) = some r)
    {d : Category} (hreach : Relation.TransGen (childStep s) c d) : d ∈ r := by
  induction hreach with
  | single hstep =>
    exact descListF_mem_of_mem_list h (mem_childrenOf.mpr ⟨hstep.1, hstep.2⟩)
  | tail hTG hstep ih =>
    exact descListF_closed h ih (mem_childrenOf.mpr ⟨hstep.1, hstep.2⟩)

/-- The target of a parent→child chain is a stored row. -/
theorem transGen_target_mem {s : List Category} {c d : Category}
    (h : Relation.TransGen (childStep s) c d) : d ∈ s := by
  cases h with
  | single hstep => exact hstep.1
  | tail _ hstep => exact hstep.1

/-- The target of a reflexive chain is the source or a stored row. -/
theorem rtg_endpoint {s : List Category} {k d : Category}
    (h : Relation.ReflTransGen (childStep s) k d) : d = k ∨ d ∈ s := by
  cases h with
  | refl => exact Or.inl rfl
  | tail _ hstep => exact Or.inr hstep.1

/-- Depth strictly increases along a nonempty parent→child chain. -/
theorem depth_lt_of_transGen {s : List Category} (hN : NodupIds s) (hR : Rooted s)
    {c d : Category} (hc : c ∈ s) (h : Relation.TransGen (childStep s) c d) :
    ∃ dc dd, depthQ s c = some dc ∧ depthQ s d = some dd ∧ dc < dd := by
  induction h with
  | single hstep =>
    obtain ⟨dc, h1, h2⟩ := depthQ_step hN hR hc hstep.1 hstep.2
    exact ⟨dc, dc + 1, h1, h2, by omega⟩
  | tail hTG hstep ih =>
    obtain ⟨dc, dm, h1, h2, hlt⟩ := ih
    have hm := transGen_target_mem hTG
    obtain ⟨dm', h3, h4⟩ := depthQ_step hN hR hm hstep.1 hstep.2
    have he : dm' = dm := Option.some.inj (h3.symm.trans h2)
    subst he
    exact ⟨dc, dm' + 1, h1, h4, by omega⟩

/-- In a rooted store no row is reachable from itself by a nonempty
chain. -/
theorem not_transGen_self {s : List Category} (hN : NodupIds s) (hR : Rooted s)
    {c : Category} (hc : c ∈ s) : ¬ Relation.TransGen (childStep s) c c := by
  intro h
  obtain ⟨dc, dd, h1, h2, hlt⟩ := depth_lt_of_transGen hN hR hc h
  have : dc = dd := Option.some.inj (h1.symm.trans h2)
  omega

/-- Two stored rows with chains into the same target are comparable:
parent links are unique, so the two chains merge. -/
theorem rtg_comparable {s : List Category} (hN : NodupIds s) {k k' d : Category}
    (hk : k ∈ s) (hk' : k' ∈ s)
    (h1 : Relation.ReflTransGen (childStep s) k d)
    (h2 : Relation.ReflTransGen (childStep s) k' d) :
    Relation.ReflTransGen (childStep s) k k' ∨
      Relation.ReflTransGen (childStep s) k' k := by
  revert h2
  induction h1 with
  | refl => intro h2; exact Or.inr h2
  | tail hkb hstep ih =>
    intro h2
    cases h2 with
    | refl => exact Or.inl (Relation.ReflTransGen.tail hkb hstep)
    | tail hk'b' hstep' =>
      rename_i b e b'
      have hbmem : b ∈ s := by
        rcases rtg_endpoint hkb with he | hm
        · rw [he]; exact hk
        · exact hm
      have hb'mem : b' ∈ s := by
        rcases rtg_endpoint hk'b' with he | hm
        · rw [he]; exact hk'
        · exact hm
      have hid : b.id = b'.id := by
        have e1 := hstep.2
        have e2 := hstep'.2
        rw [e1] at e2
        exact Option.some.inj e2
      have hbb : b' = b := eq_of_mem_of_id_eq hN hb'mem hbmem hid.symm
      subst hbb
      exact ih hk'b'

/-- Two distinct children of the same stored row admit no chain from one
to the other: their depths coincide while chains strictly increase
depth. -/
theorem sibling_no_rtg {s : List Category} (hN : NodupIds s) (hR : Rooted s)
    {c a b : Category} (hc : c ∈ s) (ha : a ∈ childrenOf s c)
    (hb : b ∈ childrenOf s c) (hne : a ≠ b)
    (h : Relation.ReflTransGen (childStep s) a b) : False := by
  have hac := mem_childrenOf.mp ha
  have hbc := mem_childrenOf.mp hb
  have htg : Relation.TransGen (childStep s) a b := by
    rcases Relation.ReflTransGen.cases_head h with he | ⟨y, hy, hyb⟩
    · exact absurd he hne
    · exact Relation.TransGen.head' hy hyb
  obtain ⟨da, db, h1, h2, hlt⟩ := depth_lt_of_transGen hN hR hac.1 htg
  obtain ⟨dc1, hdc1, hda⟩ := depthQ_step hN hR hc hac.1 hac.2
  obtain ⟨dc2, hdc2, hdb⟩ := depthQ_step hN hR hc hbc.1 hbc.2
  have e1 : da = dc1 + 1 := Option.some.inj (h1.symm.trans hda)
  have e2 : db = dc2 + 1 := Option.some.inj (h2.symm.trans hdb)
  have e3 : dc1 = dc2 := Option.some.inj (hdc1.symm.trans hdc2)
  omega

/-- In a rooted store with unique ids, a successful run of the fueled
collection on a sublist of some stored row's children has no duplicate
entries: subtrees of distinct siblings are disjoint and never climb back
to a sibling. -/
theorem descListF_nodup {s : List Category} (hN : NodupIds s) (hR : Rooted s) :
    ∀ (f : Nat) (c : Category) (l r : List Category), c ∈ s →
      l.Sublist (childrenOf s c) → descListF s f l = some r → r.Nodup := by
  intro f
  induction f with
  | zero =>
    intro c l r _ _ h
    cases l with
    | nil =>
      simp only [descListF] at h
      injection h with h
      subst h
      exact List.nodup_nil
    | cons a t => simp [descListF] at h
  | succ n ihf =>
    intro c l
    induction l with
    | nil =>
      intro r _ _ h
      rw [descListF_succ] at h
      simp only [descStep] at h
      injection h with h
      subst h
      exact List.nodup_nil
    | cons a t ihl =>
      intro r hc hsub h
      rw [descListF_succ] at h
      simp only [descStep] at h
      split at h
      · rename_i ds rest hds hrest
        injection h with h
        subst h
        have hasub : a ∈ childrenOf s c := hsub.subset (List.mem_cons_self _ _)
        obtain ⟨has, hap⟩ := mem_childrenOf.mp hasub
        have htsub : t.Sublist (childrenOf s c) := List.sublist_of_cons_sublist hsub
        have hrest' : descListF s (n + 1) t = some rest := hrest
        have hds_nodup : ds.Nodup := ihf a (childrenOf s a) ds has (List.Sublist.refl _) hds
        have hrest_nodup : rest.Nodup := ihl rest hc htsub hrest'
        have hsnodup : s.Nodup := List.Nodup.of_map _ hN
        have hchildnodup : (childrenOf s c).Nodup := hsnodup.filter _
        have hatnodup : (a :: t).Nodup := hsub.nodup hchildnodup
        have hanott : a ∉ t := (List.nodup_cons.mp hatnodup).1
        have hands : a ∉ ds := by
          intro hmem
          obtain ⟨x, hx, hrtg⟩ := descListF_rtg_of_mem hds hmem
          have hxc := mem_childrenOf.mp hx
          exact not_transGen_self hN hR has
            (Relation.TransGen.head' ⟨hxc.1, hxc.2⟩ hrtg)
        have hanorest : a ∉ rest := by
          intro hmem
          obtain ⟨k', hk't, hrtg⟩ := descListF_rtg_of_mem hrest' hmem
          have hk'sub : k' ∈ childrenOf s c := htsub.subset hk't
          have hne : k' ≠ a := fun he => hanott (he ▸ hk't)
          exact sibling_no_rtg hN hR hc hk'sub hasub hne hrtg
        have hdisj : List.Disjoint ds rest := by
          intro x hx1 hx2
          obtain ⟨y, hy, hrtgy⟩ := descListF_rtg_of_mem hds hx1
          have hyC := mem_childrenOf.mp hy
          have hrtg_a_x : Relation.ReflTransGen (childStep s) a x :=
            Relation.ReflTransGen.head ⟨hyC.1, hyC.2⟩ hrtgy
          obtain ⟨k', hk't, hrtg_k'_x⟩ := descListF_rtg_of_mem hrest' hx2
          have hk'sub : k' ∈ childrenOf s c := htsub.subset hk't
          have hk's : k' ∈ s := (mem_childrenOf.mp hk'sub).1
          have hne : a ≠ k' := fun he => hanott (he ▸ hk't)
          rcases rtg_comparable hN has hk's hrtg_a_x hrtg_k'_x with hcomp | hcomp
          · exact sibling_no_rtg hN hR hc hasub hk'sub hne hcomp
          · exact sibling_no_rtg hN hR hc hk'sub hasub (Ne.symm hne) hcomp
        rw [List.nodup_cons, List.mem_append]
        refine ⟨fun hor => ?_, List.nodup_append.mpr ⟨hds_nodup, hrest_nodup, hdisj⟩⟩
        rcases hor with hmem | hmem
        · exact hands hmem
        · exact hanorest hmem
      · cases h

/-- Fuel sufficiency: the fueled collection succeeds whenever every
pending row is stored with a defined depth and the remaining fuel covers
the remaining depth budget of the store. -/
theorem descListF_isSome {s : List Category} (hN : NodupIds s) (hR : Rooted s) :
    ∀ (f : Nat) (l : List Category),
      (∀ k ∈ l, k ∈ s ∧ ∃ d, depthQ s k = some d ∧ s.length + 1 ≤ d + f) →
      (descListF s f l).isSome = true := by
  intro f
  induction f with
  | zero =>
    intro l hl
    cases l with
    | nil => rfl
    | cons k ks =>
      obtain ⟨hks, d, hd, hle⟩ := hl k (List.mem_cons_self _ _)
      have : d < s.length + 1 := depthF_lt hd
      omega
  | succ n ih =>
    intro l
    induction l with
    | nil => intro _; rfl
    | cons k ks ihl =>
      intro hl
      obtain ⟨hkmem, dk, hdk, hdkle⟩ := hl k (List.mem_cons_self _ _)
      have h1 : (descListF s n (childrenOf s k)).isSome = true := by
        apply ih
        intro x hx
        obtain ⟨hxs, hxp⟩ := mem_childrenOf.mp hx
        obtain ⟨dk', hdk', hdx⟩ := depthQ_step hN hR hkmem hxs hxp
        have he : dk' = dk := Option.some.inj (hdk'.symm.trans hdk)
        subst he
        exact ⟨hxs, dk' + 1, hdx, by omega⟩
      have h2 : (descListF s (n + 1) ks).isSome = true := by
        apply ihl
        intro x hx
        exact hl x (List.mem_cons_of_mem _ hx)
      obtain ⟨ds, hds⟩ := Option.isSome_iff_exists.mp h1
      obtain ⟨rest, hrest⟩ := Option.isSome_iff_exists.mp h2
      have hrest2 : descStep s (descListF s n) ks = some rest := hrest
      rw [descListF_succ]
      simp only [descStep, hds, hrest2]
      rfl

/-- In a rooted store with unique ids, `get_descendants` succeeds. -/
theorem get_descendants_isSome {s : List Category} (hN : NodupIds s) (hR : Rooted s)
    {c : Category} (_hc : c ∈ s) :
    ∃ r, Category.get_descendants s c = some r := by
  apply Option.isSome_iff_exists.mp
  apply descListF_isSome hN hR
  intro k hk
  obtain ⟨hks, hkp⟩ := mem_childrenOf.mp hk
  have hsome : (depthQ s k).isSome = true := by
    rw [depthQ, depthF_isSome]
    exact hR k hks
  obtain ⟨d, hd⟩ := Option.isSome_iff_exists.mp hsome
  exact ⟨hks, d, hd, by omega⟩

/-- C3: in an acyclic (rooted) store with unique ids, `full_path` of a
row with a parent is the full path of the parent, the separator " > ",
and the row name; `full_path` of a root is just its name. -/
theorem full_path_spec (s : List Category) (hR : Rooted s) (hN : NodupIds s)
    (c : Category) (hc : c ∈ s) :
    (c.parent = none → Category.full_path s c = some c.name) ∧
    (∀ p, p ∈ s → c.parent = some p.id →
      ∃ pp, Category.full_path s p = some pp ∧
        Category.full_path s c = some (pp ++ " > " ++ c.name)) := by
  constructor
  · intro h
    rw [Category.full_path]
    simp only [fullPathFuel, h]
  · intro p hp hpar
    have hfind : findCat s p.id = some p := findCat_self hN hp
    have hrootc := hR c hc
    simp only [rootedFuel, hpar, hfind] at hrootc
    have hsome : (fullPathFuel s s.length p).isSome = true := by
      rw [fullPathFuel_isSome]
      exact hrootc
    obtain ⟨pp, hpp⟩ := Option.isSome_iff_exists.mp hsome
    refine ⟨pp, fullPathFuel_mono (Nat.le_succ _) hpp, ?_⟩
    rw [Category.full_path]
    simp only [fullPathFuel, hpar, hfind, hpp]
    rfl

/-- C3 witness: in the demo store, the full path of "Computers" is the
full path of its parent "Electronics" plus " > Computers". -/
theorem full_path_witness :
    ∃ pp, Category.full_path sDemo catElec = some pp ∧
      Category.full_path sDemo catComp = some (pp ++ " > " ++ catComp.name) :=
  (full_path_spec sDemo (by decide) (by decide) catComp (by decide)).2
    catElec (by decide) (by decide)

/-- C4: in an acyclic (rooted) store with unique ids, `get_descendants`
returns exactly the rows transitively reachable along parent→children
edges, without duplicates, excluding the row itself, and empty when the
row has no children. -/
theorem get_descendants_spec (s : List Category) (hR : Rooted s) (hN : NodupIds s)
    (c : Category) (hc : c ∈ s) :
    ∃ r, Category.get_descendants s c = some r ∧
      (∀ d, d ∈ r ↔ ReachableFrom s c d) ∧
      r.Nodup ∧ c ∉ r ∧ (childrenOf s c = [] → r = []) := by
  obtain ⟨r, hr⟩ := get_descendants_isSome hN hR hc
  have hr' : descListF s (s.length + 1) (childrenOf s c) = some r := hr
  have hiff : ∀ d, d ∈ r ↔ ReachableFrom s c d := by
    intro d
    constructor
    · intro hd
      obtain ⟨k, hk, hrtg⟩ := descListF_rtg_of_mem hr' hd
      have hkc := mem_childrenOf.mp hk
      exact Relation.TransGen.head' ⟨hkc.1, hkc.2⟩ hrtg
    · intro hreach
      exact descListF_mem_of_reach hr' hreach
  refine ⟨r, hr, hiff, ?_, ?_, ?_⟩
  · exact descListF_nodup hN hR (s.length + 1) c (childrenOf s c) r hc
      (List.Sublist.refl _) hr'
  · intro hcr
    exact not_transGen_self hN hR hc ((hiff c).mp hcr)
  · intro hempty
    rw [hempty] at hr'
    simp only [descListF_succ, descStep] at hr'
    exact (Option.some.inj hr').symm

/-- C4 witness: descendants of "Electronics" in the demo store. -/
theorem get_descendants_witness :
    ∃ r, Category.get_descendants sDemo catElec = some r ∧
      (∀ d, d ∈ r ↔ ReachableFrom sDemo catElec d) ∧
      r.Nodup ∧ catElec ∉ r ∧ (childrenOf sDemo catElec = [] → r = []) :=
  get_descendants_spec sDemo (by decide) (by decide) catElec (by decide)

/-- C9: the count of published products under a category including all
descendants is at least the count over the category alone. -/
theorem active_product_count_ge (cats : List Category) (ps : List Product)
    (hR : Rooted cats) (hN : NodupIds cats) (c : Category) (hc : c ∈ cats) :
    ∃ nT nF, active_product_count cats ps c true = some nT ∧
      active_product_count cats ps c false = some nF ∧ nF ≤ nT := by
  obtain ⟨ds, hds⟩ := get_descendants_isSome hN hR hc
  refine ⟨(ps.filter (fun p : Product =>
      decide (p.category_id ∈ (c :: ds).map Category.id) &&
        p.status == "published")).length,
    (ps.filter (fun p : Product =>
      p.category_id == c.id && p.status == "published")).length,
    ?_, by rfl, ?_⟩
  · rw [active_product_count]
    simp only [if_pos]
    rw [hds]
    rfl
  · apply List.Sublist.length_le
    apply List.monotone_filter_right
    intro p hp
    rw [Bool.and_eq_true] at hp ⊢
    refine ⟨?_, hp.2⟩
    rw [decide_eq_true_eq]
    have : p.category_id = c.id := by simpa using hp.1
    rw [this, List.map_cons]
    exact List.mem_cons_self _ _

/-- C9 witness: in the demo store with one published product in the
child category, the count under "Electronics" including descendants is
at least its direct count. -/
theorem active_product_count_witness :
    ∃ nT nF, active_product_count sDemo [pComp] catElec true = some nT ∧
      active_product_count sDemo [pComp] catElec false = some nF ∧ nF ≤ nT :=
  active_product_count_ge sDemo [pComp] (by decide) (by decide) catElec (by decide)

/-- C7: deleting a category that has at least one product referencing it
directly is rejected with the protected-reference error, and both stores
are returned unchanged. -/
theorem delete_category_protected (cats : List Category) (ps : List Product)
    (c : Category) (p : Product) (hR : Rooted cats) (hN : NodupIds cats)
    (hc : c ∈ cats) (hp : p ∈ ps) (hpc : p.category_id = c.id) :
    delete_category cats ps c =
      (Except.error "ProtectedError: category has referencing products", cats, ps) := by
  obtain ⟨ds, hds⟩ := get_descendants_isSome hN hR hc
  rw [delete_category, hds]
  have hany : (ps.any fun q => decide (q.category_id ∈ (c :: ds).map Category.id)) = true := by
    rw [List.any_eq_true]
    refine ⟨p, hp, ?_⟩
    rw [decide_eq_true_eq, hpc, List.map_cons]
    exact List.mem_cons_self _ _
  simp only [hany, if_true]

/-- C7 witness: the root demo category with a product directly in it
cannot be deleted. -/
theorem delete_category_witness :
    delete_category sDemo [pStock10] catElec =
      (Except.error "ProtectedError: category has referencing products",
        sDemo, [pStock10]) :=
  delete_category_protected sDemo [pStock10] catElec pStock10
    (by decide) (by decide) (by decide) (by decide) (by decide)

/-- C6: with no stored review for the (product, user) pair, a first
submission with a valid rating is accepted and stored with its payload
approved flag; a second submission by the same user for the same product
— whatever its rating or approved flag — is rejected with the duplicate
error and leaves the store unchanged, so the pair has exactly one
review; the approved-review count grows by one exactly when the stored
review is approved; and the at-most-one-review-per-pair invariant is
preserved. -/
theorem add_review_at_most_one (rs : List Review) (pid uid r1 r2 : Nat)
    (a1 a2 : Bool) (h : reviewExists rs pid uid = false)
    (hr1 : validate_rating r1 = true) :
    ∃ rv rs1,
      add_review rs pid uid r1 a1 = (Except.ok rv, rs1) ∧
      add_review rs1 pid uid r2 a2 =
        (Except.error "You have already reviewed this product.", rs1) ∧
      pairCount rs1 pid uid = 1 ∧
      (a1 = true → review_count rs1 pid = review_count rs pid + 1) ∧
      (a1 = false → review_count rs1 pid = review_count rs pid) ∧
      ((∀ a b, pairCount rs a b ≤ 1) → ∀ a b, pairCount rs1 a b ≤ 1) := by
  refine ⟨{ product := pid, user := uid, rating := r1, is_approved := a1 },
    { product := pid, user := uid, rating := r1, is_approved := a1 } :: rs,
    ?_, ?_, ?_, ?_, ?_, ?_⟩
  · simp [add_review, h, hr1]
  · have hex : reviewExists
        ({ product := pid, user := uid, rating := r1, is_approved := a1 } :: rs)
        pid uid = true := by
      simp [reviewExists]
    simp [add_review, hex]
  · have h0 : pairCount rs pid uid = 0 := pairCount_eq_zero rs pid uid h
    simp only [pairCount] at h0 ⊢
    rw [List.length_eq_zero] at h0
    simp [List.filter_cons, h0]
  · intro ha1
    subst ha1
    simp [review_count, List.filter_cons]
  · intro ha1
    subst ha1
    simp [review_count, List.filter_cons]
  · intro hinv a b
    by_cases hab : pid = a ∧ uid = b
    · obtain ⟨rfl, rfl⟩ := hab
      have h0 : pairCount rs pid uid = 0 := pairCount_eq_zero rs pid uid h
      simp only [pairCount] at h0 ⊢
      rw [List.length_eq_zero] at h0
      simp [List.filter_cons, h0]
    · have : pairCount
          ({ product := pid, user := uid, rating := r1, is_approved := a1 } :: rs)
          a b = pairCount rs a b := by
        simp only [pairCount, List.filter_cons]
        have : ((pid == a) && (uid == b)) = false := by
          rcases Decidable.not_and_iff_or_not.mp hab with hna | hnb
          · simp [hna]
          · simp [hnb]
        simp [this]
      rw [this]
      exact hinv a b

/-- C6 witness: two approved submissions with valid ratings by user 2
for product 1 on an empty store: the first is stored, the second
rejected, the pair count is 1 and the approved-review count grew by
one. -/
theorem add_review_witness :
    ∃ rv rs1,
      add_review [] 1 2 5 true = (Except.ok rv, rs1) ∧
      add_review rs1 1 2 4 true =
        (Except.error "You have already reviewed this product.", rs1) ∧
      pairCount rs1 1 2 = 1 ∧
      (true = true → review_count rs1 1 = review_count [] 1 + 1) ∧
      (true = false → review_count rs1 1 = review_count [] 1) ∧
      ((∀ a b, pairCount [] a b ≤ 1) → ∀ a b, pairCount rs1 a b ≤ 1) :=
  add_review_at_most_one [] 1 2 5 4 true true (by decide) (by decide)

/-- C1: on the corrupted store whose single category is its own parent,
the recursions behind `full_path` and `get_descendants` fail to produce
a result at every recursion bound — the code has no cycle check, so the
calls never terminate with a detected-cycle error; they recurse
unboundedly. -/
theorem cyclic_store_diverges :
    (∀ fuel : Nat,
      fullPathFuel sCyc fuel catCyc = none ∧
      descListF sCyc fuel (childrenOf sCyc catCyc) = none) ∧
    Category.full_path sCyc catCyc = none ∧
    Category.get_descendants sCyc catCyc = none := by
  have hch : childrenOf sCyc catCyc = [catCyc] := rfl
  have hmain : ∀ fuel : Nat, fullPathFuel sCyc fuel catCyc = none ∧
      descListF sCyc fuel [catCyc] = none := by
    intro fuel
    induction fuel with
    | zero => exact ⟨rfl, rfl⟩
    | succ n ih =>
      constructor
      · have h1 : fullPathFuel sCyc (n + 1) catCyc =
            (fullPathFuel sCyc n catCyc).map
              (fun pp => pp ++ " > " ++ catCyc.name) := rfl
        rw [h1, ih.1]
        rfl
      · rw [descListF_succ]
        simp only [descStep]
        have ih2 : descListF sCyc n (childrenOf sCyc catCyc) = none := by
          rw [hch]
          exact ih.2
        rw [ih2]
  refine ⟨?_, ?_, ?_⟩
  · intro fuel
    rw [hch]
    exact hmain fuel
  · exact (hmain (sCyc.length + 1)).1
  · have := (hmain (sCyc.length + 1)).2
    rw [Category.get_descendants, hch]
    exact this
